import Mathlib

/-!
Verification of the QuickPizzaBench plotting scripts.

The definitions below are a shallow embedding of the numerical core of
`src/scripts/plot_rps_cdf_smooth.py`, `src/scripts/plot_request_times_smooth.py`,
`src/scripts/plot_request_times.py` and `src/scripts/plot_rps_cdf.py`.
Machine floats are modelled by exact rationals (`ℚ`); every definition is
executable and mirrors the corresponding numpy / pandas / scipy call site,
which is cited next to each definition.
-/

namespace QuickPizza

/-- Mean of a list of rationals, `sum / len`, as computed by `np.mean` and by
pandas `.mean()` aggregation. -/
def listMean (l : List ℚ) : ℚ := l.sum / l.length

/-- Ascending sort, as `np.sort(rps.values)` in `plot_rps_cdf_smooth.py` line 44
(insertion sort; any sort yields the same list of rationals). -/
def sortAsc (l : List ℚ) : List ℚ := List.insertionSort (· ≤ ·) l

/-- Raw CDF y-values `np.arange(1, n+1) / n` of `plot_rps_cdf_smooth.py` line 45:
the list `[(1)/n, (2)/n, …, n/n]`. -/
def cumulative (n : ℕ) : List ℚ := (List.range n).map (fun (i : ℕ) => ((i : ℚ) + 1) / n)

/-- Model of `np.unique(sorted, return_index=True)` applied to an ascending-sorted list
(`plot_rps_cdf_smooth.py` line 48): the distinct values in order, each paired
with the index of its first occurrence (the index at which the value differs
from its predecessor). -/
def uniqueFirstIdx (s : List ℚ) : List (ℚ × ℕ) :=
  (List.range s.length).filterMap (fun i =>
    if i = 0 ∨ s.getD i 0 ≠ s.getD (i - 1) 0 then some (s.getD i 0, i) else none)

/-- The deduplicated `(count, cumulative)` pairs fed to the interpolation branch
(`plot_rps_cdf_smooth.py` lines 44–49): x is each distinct sorted count, y is the
cumulative fraction `(first_index + 1)/n` that `cumulative[unique_indices]` selects. -/
def uniquePairs (counts : List ℚ) : List (ℚ × ℚ) :=
  let s := sortAsc counts
  (uniqueFirstIdx s).map (fun vi => (vi.1, ((vi.2 : ℚ) + 1) / s.length))

/-- The linear-interpolation kernel of `np.percentile`: at fractional rank `h`,
interpolate between `s[⌊h⌋]` and `s[min(⌊h⌋+1, n-1)]` by the fractional part of
`h`. -/
def interpAt (s : List ℚ) (h : ℚ) : ℚ :=
  let i : ℕ := (⌊h⌋).toNat
  let hi : ℕ := min (i + 1) (s.length - 1)
  s.getD i 0 + (h - i) * (s.getD hi 0 - s.getD i 0)

/-- Model of `np.percentile(a, q)` (equivalently pandas `quantile(q/100)`) with the default
linear-interpolation rule: sort ascending and interpolate at the fractional rank
`h = (n-1)·q/100`.  Used at `plot_rps_cdf_smooth.py` lines 52–54 and
`plot_request_times.py` lines 50–51. -/
def percentile (xs : List ℚ) (q : ℚ) : ℚ :=
  let s := sortAsc xs
  interpAt s (((s.length : ℚ) - 1) * q / 100)

/-- Model of `np.max` over a sample list: the last element of the ascending sort
(`plot_rps_cdf_smooth.py` line 56). -/
def npMax (xs : List ℚ) : ℚ := (sortAsc xs).getD (xs.length - 1) 0

/-- Model of `np.linspace a b m`: `m` evenly spaced points from `a` to `b` inclusive. -/
def linspace (a b : ℚ) (m : ℕ) : List ℚ :=
  (List.range m).map (fun (k : ℕ) => a + (k : ℚ) * (b - a) / ((m : ℚ) - 1))

/-- Python `int()` on a float: truncation toward zero. -/
def pyInt (q : ℚ) : ℤ := if 0 ≤ q then ⌊q⌋ else ⌈q⌉

/-- The `binned` branch of `plot_rps_cdf_smooth.py` lines 79–92:
`num_bins = max(20, int(n * smoothing_factor))`, bin edges
`np.linspace(min, max, num_bins + 1)`, centers the midpoints of consecutive
edges, and at each center `c` the y-value `np.mean(sorted_rps <= c)`, i.e. the
fraction of counts that are `≤ c`. -/
def binnedMethod (counts : List ℚ) (factor : ℚ) : List (ℚ × ℚ) :=
  let s := sortAsc counts
  let n := s.length
  let numBins : ℕ := max 20 (pyInt ((n : ℚ) * factor)).toNat
  let edges := linspace (s.getD 0 0) (s.getD (n - 1) 0) (numBins + 1)
  let centers := (List.range numBins).map
    (fun k => (edges.getD k 0 + edges.getD (k + 1) 0) / 2)
  centers.map (fun c => (c, (s.countP (fun v => decide (v ≤ c)) : ℚ) / n))

/-- The `reflect` boundary rule of `scipy.ndimage`: index `p` (possibly outside
`[0, n)`) is folded back into range with pattern `(d c b a | a b c d | d c b a)`;
the extension has period `2n`. -/
def reflectIdx (n : ℕ) (p : ℤ) : ℕ :=
  let m := (p % (2 * n)).toNat
  if m < n then m else 2 * n - 1 - m

/-- Model of `scipy.ndimage.gaussian_filter1d` (used at `plot_rps_cdf_smooth.py` line 75)
with kernel profile `phi` and truncation radius `r`: scipy builds the window
`phi(t)` for `t ∈ [-r, r]`, divides by its sum (`phi_x /= phi_x.sum()`), and
correlates with the input under `reflect` boundary handling.  The gaussian
profile itself (`exp(-t²/2σ²)` with `σ = smoothing_factor·n/100`) is a
transcendental function of the float inputs, so it enters as the parameter
`phi`; the positivity `0 < phi t` that the real gaussian satisfies is the only
property the theorems assume. -/
def gaussianFilter1dWith (phi : ℤ → ℚ) (r : ℕ) (ys : List ℚ) : List ℚ :=
  let n := ys.length
  let offsets : List ℤ := (List.range (2 * r + 1)).map (fun (k : ℕ) => (k : ℤ) - (r : ℤ))
  let S := (offsets.map phi).sum
  (List.range n).map (fun (i : ℕ) =>
    (offsets.map (fun t => phi t * ys.getD (reflectIdx n ((i : ℕ) + t : ℤ)) 0)).sum / S)

/-- The `gaussian` branch of `plot_rps_cdf_smooth.py` lines 72–77: the x-axis is
the sorted counts unchanged, and the y-axis is the gaussian filter applied to the
raw cumulative values. -/
def gaussianMethod (counts : List ℚ) (phi : ℤ → ℚ) (r : ℕ) : List ℚ × List ℚ :=
  (sortAsc counts, gaussianFilter1dWith phi r (cumulative counts.length))

/-- One row of the augmented linear system for the not-a-knot cubic-spline
moments (second derivatives) `M₀ … M_{n-1}`: row 0 and row `n-1` express
third-derivative continuity at the first and last interior knots (the
not-a-knot condition `scipy.interpolate.interp1d(kind='cubic')` imposes), the
middle rows express first-derivative continuity of the piecewise cubics. -/
def splineRow (hs ys : List ℚ) (n i : ℕ) : List ℚ :=
  let h := fun j => hs.getD j 0
  let y := fun j => ys.getD j 0
  (List.range (n + 1)).map (fun j =>
    if i = 0 then
      if j = 0 then -(h 1) else if j = 1 then h 0 + h 1 else if j = 2 then -(h 0) else 0
    else if i = n - 1 then
      if j = n - 3 then -(h (n - 2)) else if j = n - 2 then h (n - 3) + h (n - 2)
      else if j = n - 1 then -(h (n - 3)) else 0
    else
      if j = i - 1 then h (i - 1) else if j = i then 2 * (h (i - 1) + h i)
      else if j = i + 1 then h i
      else if j = n then 6 * ((y (i + 1) - y i) / h i - (y i - y (i - 1)) / h (i - 1))
      else 0)

/-- The full augmented moment system for knots `xs` and values `ys`
(`hs` are the knot spacings). -/
def splineSystem (xs ys : List ℚ) : List (List ℚ) :=
  let n := xs.length
  let hs := List.zipWith (fun a b => b - a) xs xs.tail
  (List.range n).map (splineRow hs ys n)

/-- Gaussian elimination with back-substitution on an augmented system, fueled by
the row count: pick a row with nonzero leading coefficient, normalize, eliminate
the first column from the remaining rows, solve the reduced system, substitute
back.  Solves exactly the linear system scipy's banded solver solves. -/
def gaussAux : ℕ → List (List ℚ) → Option (List ℚ)
  | 0, rows => if rows.isEmpty then some [] else none
  | fuel + 1, rows =>
    let zs := rows.takeWhile (fun row => decide (row.headD 0 = 0))
    match rows.dropWhile (fun row => decide (row.headD 0 = 0)) with
    | [] => none
    | p :: tl =>
      let pr := p.tail.map (· / p.headD 1)
      let rest := (zs ++ tl).map
        (fun row => List.zipWith (fun a b => a - row.headD 0 * b) row.tail pr)
      match gaussAux fuel rest with
      | none => none
      | some xsol => some ((pr.getLastD 0 - (List.zipWith (· * ·) pr xsol).sum) :: xsol)

/-- Exact solution of an augmented linear system (`none` when singular). -/
def gaussSolve (rows : List (List ℚ)) : Option (List ℚ) := gaussAux rows.length rows

/-- The moments (second derivatives at the knots) of the not-a-knot interpolating
cubic spline — the spline `interp1d(kind='cubic')` computes. -/
def notAKnotMoments (xs ys : List ℚ) : List ℚ :=
  (gaussSolve (splineSystem xs ys)).getD (List.replicate xs.length 0)

/-- Evaluation of the not-a-knot cubic spline at `x`: locate the piece whose left
knot is the last knot `≤ x` (clamped to the final piece) and evaluate the
standard moment form of the cubic on that piece. -/
def splineEval (xs ys : List ℚ) (x : ℚ) : ℚ :=
  let n := xs.length
  let M := notAKnotMoments xs ys
  let i := min ((xs.takeWhile (fun t => decide (t ≤ x))).length - 1) (n - 2)
  let x0 := xs.getD i 0
  let x1 := xs.getD (i + 1) 0
  let hh := x1 - x0
  let m0 := M.getD i 0
  let m1 := M.getD (i + 1) 0
  let y0 := ys.getD i 0
  let y1 := ys.getD (i + 1) 0
  m0 * (x1 - x) ^ 3 / (6 * hh) + m1 * (x - x0) ^ 3 / (6 * hh)
    + (y0 - m0 * hh ^ 2 / 6) * (x1 - x) / hh
    + (y1 - m1 * hh ^ 2 / 6) * (x - x0) / hh

/-- The `interpolate` branch of `plot_rps_cdf_smooth.py` lines 59–70: with more
than 4 unique `(count, cumulative)` points, fit the cubic spline through them and
evaluate it at `num_points` evenly spaced x-values spanning `[min, max]`;
otherwise return the deduplicated points unchanged.  (The `~np.isnan` mask of
line 66 removes nothing here: over exact rationals the in-range spline
evaluation is always defined, mirroring that `fill_value=(0, 1)` with
`bounds_error=False` produces no NaN inside `[min, max]`.) -/
def interpolateMethod (counts : List ℚ) (numPoints : ℕ) : List (ℚ × ℚ) :=
  let up := uniquePairs counts
  if 4 < up.length then
    let uxs := up.map Prod.fst
    let uys := up.map Prod.snd
    let mn := uxs.getD 0 0
    let mx := uxs.getD (uxs.length - 1) 0
    (linspace mn mx numPoints).map (fun x => (x, splineEval uxs uys x))
  else up

/-- pandas `rolling(window=w, center=True).mean()`
(`plot_request_times_smooth.py` line 61): the output at index `i` is the mean of
the `w` samples `[i - (w-1-o), i + o]` with `o = (w-1)/2` (pandas' centering
offset), and `none` (NaN) whenever that window does not fit inside the sequence
(`min_periods` defaults to the full window). -/
def rollingCentered (vals : List ℚ) (w : ℕ) : List (Option ℚ) :=
  let n := vals.length
  let o := (w - 1) / 2
  (List.range n).map (fun i =>
    if w ≤ i + o + 1 ∧ i + o < n then
      some (listMean ((vals.drop (i + o + 1 - w)).take w))
    else none)

/-- The `w`-sample centered window slice averaged at index `i`. -/
def windowSlice (vals : List ℚ) (w i : ℕ) : List ℚ :=
  let o := (w - 1) / 2
  (vals.drop (i + o + 1 - w)).take w

/-- The one-second bucket key of a sample: pandas `resample('1S')` assigns the
sample at timestamp `t` to the bucket `[⌊t⌋, ⌊t⌋ + 1)`. -/
def bucketKey (s : ℚ × ℚ) : ℤ := ⌊s.1⌋

/-- The distinct bucket keys of a sample list. -/
def bucketKeys (samples : List (ℚ × ℚ)) : List ℤ := (samples.map bucketKey).dedup

/-- The values of the samples falling in bucket `k`. -/
def bucketVals (samples : List (ℚ × ℚ)) (k : ℤ) : List ℚ :=
  (samples.filter (fun s => decide (bucketKey s = k))).map Prod.snd

/-- The `resample` branch of `plot_request_times_smooth.py` lines 64–72: group
the samples into one-second buckets, aggregate each bucket to
`(mean, count)`, and keep only buckets with `count >= 3` (empty buckets have
count 0 and are likewise dropped). -/
def resampleMethod (samples : List (ℚ × ℚ)) : List (ℤ × ℚ × ℕ) :=
  (bucketKeys samples).filterMap (fun k =>
    let vs := bucketVals samples k
    if 3 ≤ vs.length then some (k, listMean vs, vs.length) else none)

/-- Determinant of a 3×3 matrix, row-major entries. -/
def det3 (a b c d e f g h i : ℚ) : ℚ :=
  a * (e * i - f * h) - b * (d * i - f * g) + c * (d * h - e * g)

/-- A column of four rationals. -/
abbrev Vec4 := ℚ × ℚ × ℚ × ℚ

/-- Determinant of the 4×4 matrix with columns `a b c d`, by cofactor expansion
along the first column. -/
def det4 (a b c d : Vec4) : ℚ :=
    a.1 * det3 b.2.1 c.2.1 d.2.1 b.2.2.1 c.2.2.1 d.2.2.1 b.2.2.2 c.2.2.2 d.2.2.2
  - a.2.1 * det3 b.1 c.1 d.1 b.2.2.1 c.2.2.1 d.2.2.1 b.2.2.2 c.2.2.2 d.2.2.2
  + a.2.2.1 * det3 b.1 c.1 d.1 b.2.1 c.2.1 d.2.1 b.2.2.2 c.2.2.2 d.2.2.2
  - a.2.2.2 * det3 b.1 c.1 d.1 b.2.1 c.2.1 d.2.1 b.2.2.1 c.2.2.1 d.2.2.1

/-- Power sum `Σ xᵢ^p` over the abscissas of a point list. -/
def powSum (pts : List (ℚ × ℚ)) (p : ℕ) : ℚ := (pts.map (fun q => q.1 ^ p)).sum

/-- Weighted power sum `Σ xᵢ^p · yᵢ` over a point list. -/
def momSum (pts : List (ℚ × ℚ)) (p : ℕ) : ℚ := (pts.map (fun q => q.1 ^ p * q.2)).sum

/-- Column `j` of the 4×4 normal matrix `AᵀA` of the cubic least-squares problem. -/
def normalCol (pts : List (ℚ × ℚ)) (j : ℕ) : Vec4 :=
  (powSum pts j, powSum pts (j + 1), powSum pts (j + 2), powSum pts (j + 3))

/-- The right-hand side `Aᵀy` of the cubic least-squares normal equations. -/
def momVec (pts : List (ℚ × ℚ)) : Vec4 :=
  (momSum pts 0, momSum pts 1, momSum pts 2, momSum pts 3)

/-- Degree-3 least-squares fit through a point list — the fit
`scipy.signal.savgol_filter(..., polyorder=3)` and `np.polyfit(..., 3)` compute —
obtained from the normal equations `AᵀA c = Aᵀ y` by Cramer's rule. -/
def polyfitCubic (pts : List (ℚ × ℚ)) : Vec4 :=
  let c0 := normalCol pts 0
  let c1 := normalCol pts 1
  let c2 := normalCol pts 2
  let c3 := normalCol pts 3
  let b := momVec pts
  let D := det4 c0 c1 c2 c3
  (det4 b c1 c2 c3 / D, det4 c0 b c2 c3 / D, det4 c0 c1 b c3 / D, det4 c0 c1 c2 b / D)

/-- Evaluation of a cubic with coefficient vector `c` at `t`. -/
def polyEval (c : Vec4) (t : ℚ) : ℚ :=
  c.1 + c.2.1 * t + c.2.2.1 * t ^ 2 + c.2.2.2 * t ^ 3

/-- Model of the `savgol_filter` output at index `i` (window length `w`, `polyorder=3`,
default `mode='interp'`): interior points are the center value of the cubic
least-squares fit on the window centered at `i`; the first and last `w/2`
points are the values at their own positions of the fit on the first
(respectively last) `w` samples.  Positions are taken relative to the window
center, as `savgol_coeffs` does. -/
def savgolAt (vals : List ℚ) (w i : ℕ) : ℚ :=
  let n := vals.length
  let half := w / 2
  let lo : ℕ := if i < half then 0 else if n ≤ i + half then n - w else i - half
  let node : ℕ → ℚ := fun k => (k : ℚ) - (half : ℚ)
  let pts := (List.range w).map (fun k => (node k, vals.getD (lo + k) 0))
  polyEval (polyfitCubic pts) ((i : ℚ) - ((lo : ℚ) + (half : ℚ)))

/-- The full Savitzky–Golay filtered series: one output point per input point. -/
def savgolList (vals : List ℚ) (w : ℕ) : List ℚ :=
  (List.range vals.length).map (savgolAt vals w)

/-- The `savgol` branch of `plot_request_times_smooth.py` lines 74–83 together
with the script's top-level error handler (lines 195–201): when the input is
strictly longer than the window, the code calls `savgol_filter` with the window
forced odd (`w` if odd else `w + 1`) and `polyorder=3`.  `savgol_coeffs` raises
`ValueError` ("polyorder must be less than window_length") whenever that
forced-odd width is ≤ 3; the exception reaches the script's `except` clause,
which prints the error and produces no smoothed output — modelled as `none`.
Otherwise the filter result is one `some` point per input point.  When the
input is not longer than the window, the code falls back to a centered rolling
mean with window `min(10, n / 2)`. -/
def localPolyMethod (vals : List ℚ) (w : ℕ) : Option (List (Option ℚ)) :=
  if w < vals.length then
    if 3 < (if w % 2 = 1 then w else w + 1) then
      some ((savgolList vals (if w % 2 = 1 then w else w + 1)).map some)
    else none
  else some (rollingCentered vals (min 10 (vals.length / 2)))

/-- One row of the loaded CSV table: `(timestamp, metric_name, metric_value)`. -/
structure Row where
  timestamp : ℚ
  metricName : String
  metricValue : ℚ

/-- Observable outcome of one plotting invocation: whether the empty-data
diagnostic was printed, and whether an image file was saved. -/
structure Outcome where
  diagnosticPrinted : Bool
  imageProduced : Bool
deriving DecidableEq

/-- The metric-name filter every script applies to the loaded table. -/
def filterMetric (table : List Row) (name : String) : List Row :=
  table.filter (fun r => decide (r.metricName = name))

/-- Control flow of `plot_request_times.py` lines 33–37 and onward: if the
filtered table is empty, print the diagnostic and return before any plotting;
otherwise fall through to `plt.savefig`. -/
def plotRequestTimesOutcome (table : List Row) : Outcome :=
  if (filterMetric table "http_req_duration").isEmpty then ⟨true, false⟩ else ⟨false, true⟩

/-- Control flow of `plot_request_times_smooth.py` lines 36–40 and onward:
same empty-check-then-save shape as `plot_request_times.py`. -/
def plotRequestTimesSmoothOutcome (table : List Row) : Outcome :=
  if (filterMetric table "http_req_duration").isEmpty then ⟨true, false⟩ else ⟨false, true⟩

/-- Control flow of `plot_rps_cdf_smooth.py` lines 30–34 and onward:
empty check printing "No HTTP requests data found!", else save the figure. -/
def plotRpsCdfSmoothOutcome (table : List Row) : Outcome :=
  if (filterMetric table "http_reqs").isEmpty then ⟨true, false⟩ else ⟨false, true⟩

/-- Control flow of `plot_rps_cdf.py` lines 23–49: the script filters the table
but performs no emptiness check; every row operation (`to_datetime`, `groupby`,
`np.sort`, `np.arange(1, 0+1)/0` on the empty array) is total on an empty
filter result, so execution always reaches `plt.savefig` and never prints an
empty-data diagnostic. -/
def plotRpsCdfOutcome (_table : List Row) : Outcome := ⟨false, true⟩

/-! ## Helper lemmas -/

theorem sortAsc_sorted (l : List ℚ) : List.Sorted (· ≤ ·) (sortAsc l) :=
  List.sorted_insertionSort _ l

theorem sortAsc_perm (l : List ℚ) : (sortAsc l).Perm l := List.perm_insertionSort _ l

theorem sortAsc_length (l : List ℚ) : (sortAsc l).length = l.length :=
  (sortAsc_perm l).length_eq

theorem sorted_getD_mono {s : List ℚ} (hs : List.Sorted (· ≤ ·) s) {j k : ℕ}
    (hjk : j ≤ k) (hk : k < s.length) : s.getD j 0 ≤ s.getD k 0 := by
  have hj : j < s.length := lt_of_le_of_lt hjk hk
  simp only [List.getD_eq_getElem?_getD, List.getElem?_eq_getElem hj,
    List.getElem?_eq_getElem hk, Option.getD_some]
  have h := hs.rel_get_of_le (a := ⟨j, hj⟩) (b := ⟨k, hk⟩) (Fin.mk_le_mk.mpr hjk)
  simpa using h

theorem linspace_getElem (a b : ℚ) (m k : ℕ) (h : k < m) :
    (linspace a b m)[k]? = some (a + (k : ℚ) * (b - a) / ((m : ℚ) - 1)) := by
  simp only [linspace, List.getElem?_map, List.getElem?_range h, Option.map_some']

theorem linspace_length (a b : ℚ) (m : ℕ) : (linspace a b m).length = m := by
  simp [linspace]

theorem exists_mul_le_sum : ∀ l : List ℚ, l ≠ [] → ∃ a ∈ l, (l.length : ℚ) * a ≤ l.sum
  | [x], _ => ⟨x, by simp, by simp⟩
  | x :: y :: t, _ => by
    obtain ⟨a, ha, hle⟩ := exists_mul_le_sum (y :: t) (by simp)
    have hlen : (0 : ℚ) ≤ ((y :: t).length : ℚ) := by positivity
    by_cases hxa : x ≤ a
    · refine ⟨x, by simp, ?_⟩
      have h2 : ((y :: t).length : ℚ) * x ≤ ((y :: t).length : ℚ) * a :=
        mul_le_mul_of_nonneg_left hxa hlen
      push_cast [List.length_cons, List.sum_cons] at h2 hle ⊢
      nlinarith
    · have hax : a ≤ x := le_of_not_le hxa
      refine ⟨a, by simpa using Or.inr ha, ?_⟩
      push_cast [List.length_cons, List.sum_cons] at hle ⊢
      nlinarith

theorem exists_sum_le_mul : ∀ l : List ℚ, l ≠ [] → ∃ b ∈ l, l.sum ≤ (l.length : ℚ) * b
  | [x], _ => ⟨x, by simp, by simp⟩
  | x :: y :: t, _ => by
    obtain ⟨b, hb, hle⟩ := exists_sum_le_mul (y :: t) (by simp)
    have hlen : (0 : ℚ) ≤ ((y :: t).length : ℚ) := by positivity
    by_cases hxb : b ≤ x
    · refine ⟨x, by simp, ?_⟩
      have h2 : ((y :: t).length : ℚ) * b ≤ ((y :: t).length : ℚ) * x :=
        mul_le_mul_of_nonneg_left hxb hlen
      push_cast [List.length_cons, List.sum_cons] at h2 hle ⊢
      nlinarith
    · have hbx : x ≤ b := le_of_not_le hxb
      refine ⟨b, by simpa using Or.inr hb, ?_⟩
      push_cast [List.length_cons, List.sum_cons] at hle ⊢
      nlinarith

theorem length_cast_pos {l : List ℚ} (h : l ≠ []) : (0 : ℚ) < (l.length : ℚ) := by
  have := List.length_pos.mpr h
  exact_mod_cast this

theorem exists_le_listMean (l : List ℚ) (h : l ≠ []) : ∃ a ∈ l, a ≤ listMean l := by
  obtain ⟨a, ha, hle⟩ := exists_mul_le_sum l h
  refine ⟨a, ha, ?_⟩
  rw [listMean, le_div_iff₀ (length_cast_pos h), mul_comm]
  exact hle

theorem exists_listMean_le (l : List ℚ) (h : l ≠ []) : ∃ b ∈ l, listMean l ≤ b := by
  obtain ⟨b, hb, hle⟩ := exists_sum_le_mul l h
  refine ⟨b, hb, ?_⟩
  rw [listMean, div_le_iff₀ (length_cast_pos h), mul_comm]
  exact hle

theorem listMean_const (l : List ℚ) (v : ℚ) (hl : l ≠ []) (hc : ∀ x ∈ l, x = v) :
    listMean l = v := by
  rw [listMean, List.sum_eq_card_nsmul l v hc, nsmul_eq_mul, mul_comm,
    mul_div_cancel_right₀ _ (ne_of_gt (length_cast_pos hl))]

theorem getD_lt_indexOf_ne (s : List ℚ) (c : ℚ) :
    ∀ j, j < List.indexOf c s → s.getD j 0 ≠ c := by
  induction s with
  | nil => intro j hj; simp [List.indexOf] at hj
  | cons x t ih =>
    intro j hj
    rw [List.indexOf_cons] at hj
    by_cases hxc : x = c
    · rw [show (x == c) = true from beq_iff_eq.mpr hxc, cond_true] at hj
      omega
    · rw [show (x == c) = false from beq_eq_false_iff_ne.mpr hxc, cond_false] at hj
      cases j with
      | zero => simpa using hxc
      | succ j2 => exact ih j2 (by omega)

/-! ## C5: empty-filter behavior of the four plotting entry points -/

/-- C5 counterexample.  The claim says every plotting entry point produces no
image artifact when no row matches the target metric.  For the table containing
the single row `(0, "other_metric", 1)` nothing matches `http_reqs`, yet
`plot_rps_cdf.py` (which has no emptiness check) still reaches `plt.savefig` and
saves an image, printing no diagnostic. -/
theorem c5_counterexample :
    (filterMetric [⟨0, "other_metric", 1⟩] "http_reqs").isEmpty = true ∧
    plotRpsCdfOutcome [⟨0, "other_metric", 1⟩] = ⟨false, true⟩ := by
  constructor
  · simp [filterMetric]
  · rfl

/-- C5 amended: when no row matches the target metric, the three entry points
that check for emptiness (`plot_request_times.py`, `plot_request_times_smooth.py`,
`plot_rps_cdf_smooth.py`) print the diagnostic, halt gracefully and produce no
image; `plot_rps_cdf.py` performs no such check and saves an image artifact
(without crashing) and prints no diagnostic. -/
theorem c5_amended (table : List Row)
    (hd : (filterMetric table "http_req_duration").isEmpty = true)
    (hr : (filterMetric table "http_reqs").isEmpty = true) :
    plotRequestTimesOutcome table = ⟨true, false⟩ ∧
    plotRequestTimesSmoothOutcome table = ⟨true, false⟩ ∧
    plotRpsCdfSmoothOutcome table = ⟨true, false⟩ ∧
    plotRpsCdfOutcome table = ⟨false, true⟩ := by
  refine ⟨?_, ?_, ?_, rfl⟩ <;>
    simp [plotRequestTimesOutcome, plotRequestTimesSmoothOutcome,
      plotRpsCdfSmoothOutcome, hd, hr]

/-- Witness for `c5_amended` at the concrete one-row table. -/
theorem c5_amended_witness :
    ((filterMetric [⟨0, "other_metric", 1⟩] "http_req_duration").isEmpty = true ∧
     (filterMetric [⟨0, "other_metric", 1⟩] "http_reqs").isEmpty = true) ∧
    plotRpsCdfSmoothOutcome [⟨0, "other_metric", 1⟩] = ⟨true, false⟩ ∧
    plotRpsCdfOutcome [⟨0, "other_metric", 1⟩] = ⟨false, true⟩ := by
  have h1 : (filterMetric [⟨0, "other_metric", 1⟩] "http_req_duration").isEmpty = true := by
    simp [filterMetric]
  have h2 : (filterMetric [⟨0, "other_metric", 1⟩] "http_reqs").isEmpty = true := by
    simp [filterMetric]
  exact ⟨⟨h1, h2⟩, (c5_amended _ h1 h2).2.2.1, (c5_amended _ h1 h2).2.2.2⟩

/-! ## C4: savgol branch condition and fallback -/

/-- C4 counterexample.  The claim says the filter falls back exactly when the
input is shorter than the window, and that every input of length ≥ window gets
the degree-3 Savitzky–Golay filter with one (defined) output point per input
point.  Both parts fail.  For `[1, 2, 3, 4]` with window 4 — length equal to
the window — the code takes the fallback branch (`len(x) > window` is false)
and the first output point is NaN (`none`), not a Savitzky–Golay value.  And
for `[1, 2, 3, 4, 5]` with window 2 — length ≥ window — the forced-odd width
is 3, equal to the polynomial order, so `savgol_filter` raises `ValueError`
and the script aborts producing no output at all. -/
theorem c4_counterexample :
    ([(1 : ℚ), 2, 3, 4].length = 4) ∧
    localPolyMethod [1, 2, 3, 4] 4 = some (rollingCentered [1, 2, 3, 4] 2) ∧
    (rollingCentered [1, 2, 3, 4] 2).head? = some none ∧
    localPolyMethod [1, 2, 3, 4, 5] 2 = none := by
  refine ⟨by norm_num, ?_, ?_, ?_⟩
  · norm_num [localPolyMethod]
  · norm_num [rollingCentered, List.range_succ]
  · norm_num [localPolyMethod]

/-- C4 amended: the local polynomial filter falls back to the reduced-window
rolling average exactly when the input length is ≤ the requested window.  For
inputs strictly longer than the window it applies the degree-3 Savitzky–Golay
filter (an even caller-supplied width incremented by 1 to force oddness) and
produces one defined output point per input point, provided the forced-odd
width exceeds the polynomial order 3 (caller width ≥ 4); with caller width
≤ 3 the `savgol_filter` call raises `ValueError` and the script aborts,
producing no output. -/
theorem c4_amended (vals : List ℚ) (w : ℕ) :
    (w < vals.length → 3 < (if w % 2 = 1 then w else w + 1) →
      localPolyMethod vals w
          = some ((savgolList vals (if w % 2 = 1 then w else w + 1)).map some) ∧
      ∀ out, localPolyMethod vals w = some out →
        out.length = vals.length ∧ ∀ o ∈ out, o.isSome = true) ∧
    (w < vals.length → (if w % 2 = 1 then w else w + 1) ≤ 3 →
      localPolyMethod vals w = none) ∧
    (vals.length ≤ w →
      localPolyMethod vals w = some (rollingCentered vals (min 10 (vals.length / 2)))) := by
  refine ⟨?_, ?_, ?_⟩
  · intro h hw3
    have h1 : localPolyMethod vals w
        = some ((savgolList vals (if w % 2 = 1 then w else w + 1)).map some) := by
      simp [localPolyMethod, h, hw3]
    refine ⟨h1, ?_⟩
    intro out hout
    rw [h1, Option.some_inj] at hout
    rw [← hout]
    constructor
    · simp [savgolList]
    · simp
  · intro h hw3
    simp [localPolyMethod, h, Nat.not_lt.mpr hw3]
  · intro h
    simp [localPolyMethod, Nat.not_lt.mpr h]

/-- Witness for `c4_amended`: a five-sample input with window 4 takes the
Savitzky–Golay branch (forced-odd width 5 > 3) and yields the filtered series. -/
theorem c4_amended_witness :
    (4 < [(1 : ℚ), 2, 3, 4, 5].length ∧
      3 < (if (4 : ℕ) % 2 = 1 then (4 : ℕ) else 4 + 1)) ∧
    localPolyMethod [1, 2, 3, 4, 5] 4
      = some ((savgolList [1, 2, 3, 4, 5]
          (if (4 : ℕ) % 2 = 1 then (4 : ℕ) else 4 + 1)).map some) :=
  ⟨⟨by norm_num, by norm_num⟩,
    (((c4_amended [1, 2, 3, 4, 5] 4).1 (by norm_num) (by norm_num)).1)⟩

/-! ## C2: deduplication keeps the first occurrence, not the maximal one -/

/-- C2 counterexample.  For the series `[5, 5]` (n = 2) the count 5 appears
last at index j = 1, so the claim predicts the deduplicated pair
`(5, (1+1)/2) = (5, 1)`.  The code keeps the first occurrence
(`np.unique(..., return_index=True)`), producing `(5, 1/2)` instead. -/
theorem c2_counterexample :
    uniquePairs [5, 5] = [(5, 1/2)] ∧ ((1 : ℚ)/2 ≠ (1 + 1)/2) := by
  constructor
  · norm_num [uniquePairs, uniqueFirstIdx, sortAsc, List.insertionSort, List.orderedInsert,
      List.range_succ, List.filterMap_cons, List.getD_eq_getElem?_getD,
      List.getElem?_cons_zero, List.getElem?_cons_succ]
  · norm_num

/-- C2 amended: deduplication collapses every group of equal counts to that
count's minimal cumulative fraction — for every count `c` in the sorted series
the deduplicated pair for `c` is `(c, (j+1)/n)` where `j` is the smallest index
at which `c` appears. -/
theorem c2_amended (counts : List ℚ) (c : ℚ) (hc : c ∈ sortAsc counts) :
    (c, ((List.indexOf c (sortAsc counts) : ℚ) + 1) / (counts.length : ℚ))
      ∈ uniquePairs counts := by
  have hsorted := sortAsc_sorted counts
  have hi : List.indexOf c (sortAsc counts) < (sortAsc counts).length :=
    List.indexOf_lt_length.mpr hc
  have hgot : (sortAsc counts).getD (List.indexOf c (sortAsc counts)) 0 = c := by
    rw [List.getD_eq_getElem?_getD, List.getElem?_eq_getElem hi, Option.getD_some]
    exact List.getElem_indexOf hi
  rw [uniquePairs]
  refine List.mem_map.mpr ⟨(c, List.indexOf c (sortAsc counts)), ?_, ?_⟩
  · rw [uniqueFirstIdx]
    refine List.mem_filterMap.mpr
      ⟨List.indexOf c (sortAsc counts), List.mem_range.mpr hi, ?_⟩
    have hcond : List.indexOf c (sortAsc counts) = 0 ∨
        (sortAsc counts).getD (List.indexOf c (sortAsc counts)) 0 ≠
          (sortAsc counts).getD (List.indexOf c (sortAsc counts) - 1) 0 := by
      rcases Nat.eq_zero_or_pos (List.indexOf c (sortAsc counts)) with h0 | hpos
      · exact Or.inl h0
      · refine Or.inr ?_
        rw [hgot]
        intro heq
        exact getD_lt_indexOf_ne (sortAsc counts) c
          (List.indexOf c (sortAsc counts) - 1) (by omega) heq.symm
    rw [if_pos hcond, hgot]
  · simp [sortAsc_length]

/-- Witness for `c2_amended` at the series `[2, 5]` and count 5. -/
theorem c2_amended_witness :
    ((5 : ℚ) ∈ sortAsc [2, 5]) ∧
    ((5 : ℚ), ((List.indexOf (5 : ℚ) (sortAsc [2, 5]) : ℚ) + 1) / (([(2 : ℚ), 5]).length : ℚ))
      ∈ uniquePairs [2, 5] := by
  have hmem : (5 : ℚ) ∈ sortAsc [2, 5] := by
    norm_num [sortAsc, List.insertionSort, List.orderedInsert]
  exact ⟨hmem, c2_amended [2, 5] 5 hmem⟩

/-! ## C3: binned CDF -/

theorem mem_sorted_bounds {s : List ℚ} (hs : List.Sorted (· ≤ ·) s) {x : ℚ} (hx : x ∈ s) :
    s.getD 0 0 ≤ x ∧ x ≤ s.getD (s.length - 1) 0 := by
  obtain ⟨i, hi, hix⟩ := List.mem_iff_getElem.mp hx
  have hgd : s.getD i 0 = x := by
    rw [List.getD_eq_getElem?_getD, List.getElem?_eq_getElem hi, Option.getD_some, hix]
  constructor
  · rw [← hgd]; exact sorted_getD_mono hs (Nat.zero_le i) hi
  · rw [← hgd]; exact sorted_getD_mono hs (by omega) (by omega)

/-- Unfolded form of `binnedMethod`: one map over the bin indices. -/
theorem binnedMethod_shape (counts : List ℚ) (factor : ℚ) :
    binnedMethod counts factor
      = (List.range (max 20 (pyInt (((sortAsc counts).length : ℚ) * factor)).toNat)).map
          (fun k =>
            ((((linspace ((sortAsc counts).getD 0 0)
                  ((sortAsc counts).getD ((sortAsc counts).length - 1) 0)
                  (max 20 (pyInt (((sortAsc counts).length : ℚ) * factor)).toNat + 1)).getD k 0
              + (linspace ((sortAsc counts).getD 0 0)
                  ((sortAsc counts).getD ((sortAsc counts).length - 1) 0)
                  (max 20 (pyInt (((sortAsc counts).length : ℚ) * factor)).toNat + 1)).getD
                  (k + 1) 0) / 2),
             (((sortAsc counts).countP (fun v => decide (v ≤
                (((linspace ((sortAsc counts).getD 0 0)
                    ((sortAsc counts).getD ((sortAsc counts).length - 1) 0)
                    (max 20 (pyInt (((sortAsc counts).length : ℚ) * factor)).toNat + 1)).getD k 0
                  + (linspace ((sortAsc counts).getD 0 0)
                      ((sortAsc counts).getD ((sortAsc counts).length - 1) 0)
                      (max 20 (pyInt (((sortAsc counts).length : ℚ) * factor)).toNat + 1)).getD
                      (k + 1) 0) / 2)))) : ℚ)
               / (((sortAsc counts).length : ℚ)))) := by
  simp only [binnedMethod, List.map_map]
  rfl

/-- C3 counterexample.  For the 43-element series of 42 fives and one 15 with
`smoothing_factor = 1/2`: the claim predicts `max(20, round(43 × 0.5)) = 22`
bins, but Python `int()` truncates `21.5` to 21, so the code produces 21 bins;
and the claim predicts y = 1.0 at the rightmost bin center, but that center is
`310/21 ≈ 14.76 < 15`, so the 15 is not counted and y = 42/43 ≠ 1. -/
theorem c3_counterexample :
    (binnedMethod (List.replicate 42 5 ++ [15]) (1/2)).length = 21 ∧
    (binnedMethod (List.replicate 42 5 ++ [15]) (1/2)).getLast?.map Prod.snd
        = some (42/43) ∧
    (21 : ℕ) ≠ max 20 (round (((List.replicate 42 (5 : ℚ) ++ [15]).length : ℚ) * (1/2))).toNat ∧
    some ((42 : ℚ)/43) ≠ some (1 : ℚ) := by
  refine ⟨?_, ?_, ?_, by norm_num⟩
  · norm_num [binnedMethod, sortAsc, pyInt]
    simp
  · norm_num [binnedMethod, sortAsc, pyInt, List.insertionSort, List.orderedInsert,
      List.replicate]
    simp
    norm_num [linspace, List.getLast?_map, List.range_succ, List.getElem?_map,
      List.getElem?_range, List.getD_eq_getElem?_getD]
  · rw [round_eq]
    norm_num
    simp

/-- C3 amended: for every non-empty count series the Binned method produces
`max(20, int(n × smoothing_factor))` bins (Python `int()` truncation, not
rounding), the y-value at each bin center `c` is the fraction of counts `≤ c`,
and the y-value at the rightmost bin center equals 1.0 if and only if all
counts are equal (`min = max`); whenever `min < max` the maximum count lies
strictly above the rightmost bin center and y there is below 1. -/
theorem c3_amended (counts : List ℚ) (factor : ℚ) (hne : counts ≠ []) :
    (binnedMethod counts factor).length
        = max 20 (pyInt ((counts.length : ℚ) * factor)).toNat ∧
    (∀ p ∈ binnedMethod counts factor,
        p.2 = (((sortAsc counts).countP (fun v => decide (v ≤ p.1))) : ℚ)
          / (counts.length : ℚ)) ∧
    ((binnedMethod counts factor).getLast?.map Prod.snd = some 1 ↔
        (sortAsc counts).getD 0 0 = npMax counts) := by
  have hlen : (sortAsc counts).length = counts.length := sortAsc_length counts
  have hn0 : 0 < counts.length := List.length_pos.mpr hne
  have hsorted := sortAsc_sorted counts
  have hshape := binnedMethod_shape counts factor
  rw [hlen] at hshape
  refine ⟨?_, ?_, ?_⟩
  · rw [hshape]; simp
  · rw [hshape]
    intro p hp
    obtain ⟨k, hk, hpk⟩ := List.mem_map.mp hp
    rw [← hpk]
  · rw [show npMax counts = (sortAsc counts).getD (counts.length - 1) 0 from rfl]
    rw [hshape, List.getLast?_map, List.getLast?_range]
    have hnb0 : max 20 (pyInt ((counts.length : ℚ) * factor)).toNat ≠ 0 := by positivity
    rw [if_neg hnb0]
    set nb := max 20 (pyInt ((counts.length : ℚ) * factor)).toNat with hnbdef
    have hnb20 : 20 ≤ nb := le_max_left _ _
    set mn := (sortAsc counts).getD 0 0 with hmn
    set mx := (sortAsc counts).getD (counts.length - 1) 0 with hmx
    have hnbQ : (0 : ℚ) < (nb : ℚ) := by
      have h1 : 0 < nb := by omega
      exact_mod_cast h1
    have hnbne : ((nb : ℚ)) ≠ 0 := ne_of_gt hnbQ
    have hsucc : nb - 1 + 1 = nb := by omega
    have he1 : (linspace mn mx (nb + 1)).getD (nb - 1) 0
        = mn + ((nb : ℚ) - 1) * (mx - mn) / (nb : ℚ) := by
      rw [List.getD_eq_getElem?_getD, linspace_getElem mn mx (nb + 1) (nb - 1) (by omega),
        Option.getD_some]
      push_cast [Nat.cast_sub (show 1 ≤ nb by omega)]
      norm_num
    have he2 : (linspace mn mx (nb + 1)).getD nb 0
        = mn + (nb : ℚ) * (mx - mn) / (nb : ℚ) := by
      rw [List.getD_eq_getElem?_getD, linspace_getElem mn mx (nb + 1) nb (by omega),
        Option.getD_some]
      push_cast
      norm_num
    have hmxmem : mx ∈ sortAsc counts := by
      rw [hmx, List.getD_eq_getElem?_getD,
        List.getElem?_eq_getElem (by omega : counts.length - 1 < (sortAsc counts).length),
        Option.getD_some]
      exact List.getElem_mem _
    have hnQ : ((counts.length : ℚ)) ≠ 0 := by positivity
    simp only [Option.map_some', Option.some_inj, hsucc, he1, he2]
    have hcL : (mn + ((nb : ℚ) - 1) * (mx - mn) / (nb : ℚ)
        + (mn + (nb : ℚ) * (mx - mn) / (nb : ℚ))) / 2
        = mx - (mx - mn) / (2 * (nb : ℚ)) := by
      field_simp
      ring
    rw [hcL]
    constructor
    · intro hy
      by_contra hmnx
      have hle : mn ≤ mx := by
        rw [hmn, hmx, ← hlen]
        exact sorted_getD_mono hsorted (Nat.zero_le _) (by omega)
      have hlt : mn < mx := lt_of_le_of_ne hle hmnx
      have hcl : mx - (mx - mn) / (2 * (nb : ℚ)) < mx := by
        have hpos : 0 < (mx - mn) / (2 * (nb : ℚ)) := div_pos (by linarith) (by positivity)
        linarith
      rw [div_eq_one_iff_eq hnQ] at hy
      have hy2 : ((sortAsc counts).countP
          (fun v => decide (v ≤ mx - (mx - mn) / (2 * (nb : ℚ))))) = counts.length := by
        exact_mod_cast hy
      have hmxle := List.countP_eq_length.mp (by rw [hy2, hlen]) mx hmxmem
      rw [decide_eq_true_eq] at hmxle
      linarith
    · intro hmneq
      have hzero : (mx - mn) / (2 * (nb : ℚ)) = 0 := by
        rw [hmneq, sub_self, zero_div]
      have hall : ∀ x ∈ sortAsc counts,
          decide (x ≤ mx - (mx - mn) / (2 * (nb : ℚ))) = true := by
        intro x hx
        have hb := (mem_sorted_bounds hsorted hx).2
        rw [hlen, ← hmx] at hb
        rw [decide_eq_true_eq, hzero, sub_zero]
        exact hb
      rw [List.countP_eq_length.mpr hall, hlen]
      exact div_self hnQ

/-- Witness for `c3_amended` at the two-element series `[5, 5]`. -/
theorem c3_amended_witness :
    ([(5 : ℚ), 5] ≠ []) ∧
    (binnedMethod [5, 5] (1/2)).length
        = max 20 (pyInt ((([(5 : ℚ), 5]).length : ℚ) * (1/2))).toNat :=
  ⟨by simp, (c3_amended [5, 5] (1/2) (by simp)).1⟩

/-! ## C7: bucketed resample -/

theorem sum_dedup_count (l : List ℤ) :
    (l.dedup.map (fun k => l.count k)).sum = l.length := by
  have h := Multiset.toFinset_sum_count_eq (l : Multiset ℤ)
  rw [Finset.sum] at h
  simp only [Multiset.toFinset, Multiset.coe_dedup, Multiset.map_coe, Multiset.sum_coe,
    Multiset.coe_count, Multiset.coe_card] at h
  exact h

theorem sum_filterMap_counts_le (l : List ℤ) (f : ℤ → Option (ℤ × ℚ × ℕ)) (g : ℤ → ℕ)
    (hf : ∀ k e, f k = some e → e.2.2 = g k) :
    ((l.filterMap f).map (fun e => e.2.2)).sum ≤ (l.map g).sum := by
  induction l with
  | nil => simp
  | cons k t ih =>
    rw [List.filterMap_cons]
    cases hfk : f k with
    | none =>
      simp only [List.map_cons, List.sum_cons]
      exact le_trans ih (Nat.le_add_left _ _)
    | some e =>
      simp only [List.map_cons, List.sum_cons]
      rw [hf k e hfk]
      exact Nat.add_le_add_left ih _

theorem bucketVals_length (samples : List (ℚ × ℚ)) (k : ℤ) :
    (bucketVals samples k).length = (samples.map bucketKey).count k := by
  rw [bucketVals, List.length_map, List.count_eq_countP, List.countP_map,
    ← List.countP_eq_length_filter]
  refine List.countP_congr (fun s _ => ?_)
  simp only [Function.comp_apply, beq_iff_eq, decide_eq_true_eq]

/-- C7: every retained bucket of the bucketed resample has count ≥ 3, and the
retained buckets' counts sum to at most the number of input samples (the
one-second buckets partition the samples and dropped buckets only lose mass). -/
theorem c7_resample_counts (samples : List (ℚ × ℚ)) :
    (∀ e ∈ resampleMethod samples, 3 ≤ e.2.2) ∧
    ((resampleMethod samples).map (fun e => e.2.2)).sum ≤ samples.length := by
  constructor
  · intro e he
    obtain ⟨k, _, hke⟩ := List.mem_filterMap.mp he
    have hke2 : (if 3 ≤ (bucketVals samples k).length
        then some (k, listMean (bucketVals samples k), (bucketVals samples k).length)
        else none) = some e := hke
    by_cases h3 : 3 ≤ (bucketVals samples k).length
    · rw [if_pos h3, Option.some_inj] at hke2
      rw [← hke2]
      exact h3
    · rw [if_neg h3] at hke2
      cases hke2
  · have h1 := sum_filterMap_counts_le (bucketKeys samples)
      (fun k => if 3 ≤ (bucketVals samples k).length
        then some (k, listMean (bucketVals samples k), (bucketVals samples k).length)
        else none)
      (fun k => (bucketVals samples k).length)
      (fun k e hke => by
        have hke2 : (if 3 ≤ (bucketVals samples k).length
            then some (k, listMean (bucketVals samples k), (bucketVals samples k).length)
            else none) = some e := hke
        show e.2.2 = (bucketVals samples k).length
        by_cases h3 : 3 ≤ (bucketVals samples k).length
        · rw [if_pos h3, Option.some_inj] at hke2
          rw [← hke2]
        · rw [if_neg h3] at hke2; cases hke2)
    refine le_trans h1 ?_
    have h2 : ((bucketKeys samples).map (fun k => (bucketVals samples k).length)).sum
        = samples.length := by
      rw [bucketKeys]
      have hc : ((samples.map bucketKey).dedup.map (fun k => (bucketVals samples k).length))
          = ((samples.map bucketKey).dedup.map (fun k => (samples.map bucketKey).count k)) :=
        List.map_congr_left (fun k _ => bucketVals_length samples k)
      rw [hc, sum_dedup_count, List.length_map]
    rw [h2]

/-! ## C10: gaussian smoothing bounds -/

theorem cumulative_length (n : ℕ) : (cumulative n).length = n := by
  simp [cumulative]

theorem cumulative_getD_bounds (n j : ℕ) (hn : 0 < n) (hj : j < n) :
    1 / (n : ℚ) ≤ (cumulative n).getD j 0 ∧ (cumulative n).getD j 0 ≤ 1 := by
  have hnQ : (0 : ℚ) < (n : ℚ) := by exact_mod_cast hn
  rw [cumulative, List.getD_eq_getElem?_getD, List.getElem?_map, List.getElem?_range hj,
    Option.map_some', Option.getD_some]
  constructor
  · gcongr
    have : (0 : ℚ) ≤ (j : ℚ) := by positivity
    linarith
  · rw [div_le_one hnQ]
    have : (j : ℚ) + 1 ≤ (n : ℚ) := by exact_mod_cast hj
    linarith

theorem reflectIdx_lt (n : ℕ) (hn : 0 < n) (p : ℤ) : reflectIdx n p < n := by
  rw [reflectIdx]
  have h2n : (0 : ℤ) < 2 * (n : ℤ) := by positivity
  have hm0 : 0 ≤ p % (2 * (n : ℤ)) := Int.emod_nonneg p (by omega)
  have hmlt : p % (2 * (n : ℤ)) < 2 * (n : ℤ) := Int.emod_lt_of_pos p h2n
  have hmn : (p % (2 * (n : ℤ))).toNat < 2 * n := by omega
  split
  · omega
  · omega

/-- C10: for every non-empty count series the Gaussian method keeps the sorted
counts as its x-axis, produces exactly one smoothed y per input point, and every
smoothed y lies within `[1/n, 1]` — the extremes of the raw cumulative values —
because the normalized kernel output is a convex combination of reflected
cumulative values.  `phi` is the positive gaussian window profile (see
`gaussianFilter1dWith`). -/
theorem c10_gaussian_bounds (counts : List ℚ) (phi : ℤ → ℚ) (r : ℕ)
    (hne : counts ≠ []) (hphi : ∀ t, 0 < phi t) :
    (gaussianMethod counts phi r).1 = sortAsc counts ∧
    (gaussianMethod counts phi r).2.length = counts.length ∧
    ∀ y ∈ (gaussianMethod counts phi r).2,
      1 / (counts.length : ℚ) ≤ y ∧ y ≤ 1 := by
  have hn : 0 < counts.length := List.length_pos.mpr hne
  refine ⟨rfl, ?_, ?_⟩
  · simp only [gaussianMethod, gaussianFilter1dWith]
    rw [List.length_map, List.length_range, cumulative_length]
  · intro y hy
    simp only [gaussianMethod, gaussianFilter1dWith, cumulative_length] at hy
    obtain ⟨i, hi, hiy⟩ := List.mem_map.mp hy
    set offs := (List.range (2 * r + 1)).map (fun (k : ℕ) => (k : ℤ) - (r : ℤ)) with hoffs
    have hoffs_ne : offs ≠ [] := by
      rw [hoffs]
      intro hc
      have := congrArg List.length hc
      simp at this
    have hS : 0 < (offs.map phi).sum := by
      refine List.sum_pos _ (fun x hx => ?_) (by simpa using hoffs_ne)
      obtain ⟨t, _, rfl⟩ := List.mem_map.mp hx
      exact hphi t
    have hbound : ∀ t : ℤ,
        1 / (counts.length : ℚ)
          ≤ (cumulative counts.length).getD (reflectIdx counts.length ((i : ℤ) + t)) 0 ∧
        (cumulative counts.length).getD (reflectIdx counts.length ((i : ℤ) + t)) 0 ≤ 1 :=
      fun t => cumulative_getD_bounds _ _ hn (by
        rw [← cumulative_length counts.length] at hn ⊢
        exact reflectIdx_lt _ (by simpa [cumulative_length] using hn) _)
    have hlow : (offs.map (fun t => phi t * (1 / (counts.length : ℚ)))).sum
        ≤ (offs.map (fun t => phi t *
            (cumulative counts.length).getD (reflectIdx counts.length ((i : ℤ) + t)) 0)).sum := by
      refine List.sum_le_sum (fun t _ => ?_)
      exact mul_le_mul_of_nonneg_left (hbound t).1 (le_of_lt (hphi t))
    have hhigh : (offs.map (fun t => phi t *
            (cumulative counts.length).getD (reflectIdx counts.length ((i : ℤ) + t)) 0)).sum
        ≤ (offs.map (fun t => phi t * 1)).sum := by
      refine List.sum_le_sum (fun t _ => ?_)
      exact mul_le_mul_of_nonneg_left (hbound t).2 (le_of_lt (hphi t))
    rw [List.sum_map_mul_right] at hlow hhigh
    rw [← hiy]
    constructor
    · rw [le_div_iff₀ hS]
      calc 1 / (counts.length : ℚ) * (offs.map phi).sum
          = (offs.map phi).sum * (1 / (counts.length : ℚ)) := by ring
        _ ≤ _ := hlow
    · rw [div_le_one hS]
      calc _ ≤ (offs.map phi).sum * 1 := hhigh
        _ = (offs.map phi).sum := by ring

/-- Witness for `c10_gaussian_bounds` with the flat positive profile and the
two-bucket series `[2, 3]`. -/
theorem c10_witness :
    (gaussianMethod [2, 3] (fun _ => 1) 1).2.length = 2 ∧
    ∀ y ∈ (gaussianMethod [2, 3] (fun _ => 1) 1).2,
      1 / (([(2 : ℚ), 3]).length : ℚ) ≤ y ∧ y ≤ 1 := by
  have h := c10_gaussian_bounds [2, 3] (fun _ => 1) 1 (by simp) (fun _ => by norm_num)
  exact ⟨by simpa using h.2.1, h.2.2⟩

/-! ## C6: centered rolling average -/

theorem countP_range_band : ∀ (n a b : ℕ), a ≤ b → b ≤ n →
    (List.range n).countP (fun i => decide (a ≤ i ∧ i < b)) = b - a := by
  intro n
  induction n with
  | zero => intro a b hab hbn; simp; omega
  | succ m ih =>
    intro a b hab hbn
    rw [List.range_succ, List.countP_append, List.countP_singleton]
    by_cases hbm : b ≤ m
    · rw [ih a b hab hbm, if_neg (by simp; omega)]
      omega
    · have hb : b = m + 1 := by omega
      subst hb
      by_cases ham : a ≤ m
      · have hcongr : (List.range m).countP (fun i => decide (a ≤ i ∧ i < m + 1))
            = (List.range m).countP (fun i => decide (a ≤ i ∧ i < m)) := by
          refine List.countP_congr (fun x hx => ?_)
          rw [List.mem_range] at hx
          simp only [decide_eq_true_eq]
          omega
        rw [hcongr, ih a m ham le_rfl, if_pos (by simp; omega)]
        omega
      · have ha : a = m + 1 := by omega
        subst ha
        rw [if_neg (by simp), List.countP_eq_zero.mpr (fun x hx => by
          rw [List.mem_range] at hx
          simp only [decide_eq_true_eq]
          omega)]
        omega

/-- C6: when the input has at least `w` samples the centered rolling mean has
exactly `n − (w−1)` defined (non-NaN) output points, and every defined output
value lies between some element and some other element of the `w`-sample
window slice it averages (i.e. within `[min, max]` of the slice); with fewer
than `w` samples every output point is NaN. -/
theorem c6_rolling (vals : List ℚ) (w : ℕ) (hw : 1 ≤ w) :
    (w ≤ vals.length →
      ((rollingCentered vals w).filterMap id).length = vals.length - (w - 1) ∧
      ∀ i v, (rollingCentered vals w).getD i none = some v →
        (∃ a ∈ windowSlice vals w i, a ≤ v) ∧ ∃ b ∈ windowSlice vals w i, v ≤ b) ∧
    (vals.length < w → (rollingCentered vals w).filterMap id = []) := by
  have ho : (w - 1) / 2 ≤ w - 1 := Nat.div_le_self _ _
  constructor
  · intro hwn
    constructor
    · rw [rollingCentered, List.filterMap_map, List.length_filterMap_eq_countP]
      have hcongr : (List.range vals.length).countP
            (fun i => ((id ∘ fun i =>
              if w ≤ i + (w - 1) / 2 + 1 ∧ i + (w - 1) / 2 < vals.length then
                some (listMean ((vals.drop (i + (w - 1) / 2 + 1 - w)).take w))
              else none) i).isSome)
          = (List.range vals.length).countP
            (fun i => decide (w - 1 - (w - 1) / 2 ≤ i ∧ i < vals.length - (w - 1) / 2)) := by
        refine List.countP_congr (fun i hi => ?_)
        rw [List.mem_range] at hi
        simp only [Function.comp_apply]
        constructor
        · intro hs
          split at hs
          · rename_i hcond
            simp only [decide_eq_true_eq]
            omega
          · simp at hs
        · intro hband
          simp only [decide_eq_true_eq] at hband
          rw [if_pos (by omega)]
          simp
      rw [hcongr, countP_range_band _ _ _ (by omega) (by omega)]
      omega
    · intro i v hgd
      by_cases hin : i < vals.length
      · rw [rollingCentered, List.getD_eq_getElem?_getD, List.getElem?_map,
          List.getElem?_range hin, Option.map_some', Option.getD_some] at hgd
        split at hgd
        · rename_i hcond
          rw [Option.some_inj] at hgd
          have hslice : windowSlice vals w i
              = (vals.drop (i + (w - 1) / 2 + 1 - w)).take w := rfl
          have hlen : (windowSlice vals w i).length = w := by
            rw [hslice, List.length_take, List.length_drop]
            omega
          have hne : windowSlice vals w i ≠ [] := by
            intro hnil
            rw [hnil] at hlen
            simp at hlen
            omega
          rw [← hgd]
          rw [show listMean ((vals.drop (i + (w - 1) / 2 + 1 - w)).take w)
              = listMean (windowSlice vals w i) from rfl]
          exact ⟨exists_le_listMean _ hne, exists_listMean_le _ hne⟩
        · cases hgd
      · rw [rollingCentered, List.getD_eq_getElem?_getD, List.getElem?_map] at hgd
        rw [List.getElem?_eq_none (by simpa using Nat.le_of_not_lt hin)] at hgd
        cases hgd
  · intro hnw
    rw [rollingCentered, List.filterMap_map]
    refine List.filterMap_eq_nil_iff.mpr (fun i hi => ?_)
    rw [List.mem_range] at hi
    simp only [Function.comp_apply]
    rw [if_neg (by omega)]
    rfl

/-- Witness for `c6_rolling`: three samples, window 2 — two defined outputs. -/
theorem c6_witness :
    ((1 : ℕ) ≤ 2 ∧ 2 ≤ [(1 : ℚ), 2, 4].length) ∧
    ((rollingCentered [1, 2, 4] 2).filterMap id).length = [(1 : ℚ), 2, 4].length - (2 - 1) :=
  ⟨⟨by norm_num, by norm_num⟩, ((c6_rolling [1, 2, 4] 2 (by norm_num)).1 (by norm_num)).1⟩

/-! ## C8: percentile ordering -/

theorem floor_toNat_cast_le {h : ℚ} (h0 : 0 ≤ h) : (((⌊h⌋).toNat : ℕ) : ℚ) ≤ h := by
  have hcast : (((⌊h⌋).toNat : ℕ) : ℚ) = ((⌊h⌋ : ℤ) : ℚ) := by
    exact_mod_cast congrArg (fun z : ℤ => (z : ℚ)) (Int.toNat_of_nonneg (Int.floor_nonneg.mpr h0))
  rw [hcast]
  exact Int.floor_le h

theorem lt_floor_toNat_add_one {h : ℚ} (h0 : 0 ≤ h) : h < (((⌊h⌋).toNat : ℕ) : ℚ) + 1 := by
  have hcast : (((⌊h⌋).toNat : ℕ) : ℚ) = ((⌊h⌋ : ℤ) : ℚ) := by
    exact_mod_cast congrArg (fun z : ℤ => (z : ℚ)) (Int.toNat_of_nonneg (Int.floor_nonneg.mpr h0))
  rw [hcast]
  exact Int.lt_floor_add_one h

theorem floor_toNat_le_of {h : ℚ} {m : ℕ} (hm : h ≤ (m : ℚ)) : (⌊h⌋).toNat ≤ m := by
  have h1 : ⌊h⌋ ≤ (m : ℤ) := by
    have := Int.floor_mono hm
    rwa [Int.floor_natCast] at this
  omega

theorem interpAt_between {s : List ℚ} (hs : List.Sorted (· ≤ ·) s) (hn : 0 < s.length)
    {h : ℚ} (hh0 : 0 ≤ h) (hhn : h ≤ (s.length : ℚ) - 1) :
    s.getD (⌊h⌋).toNat 0 ≤ interpAt s h ∧
    interpAt s h ≤ s.getD (min ((⌊h⌋).toNat + 1) (s.length - 1)) 0 := by
  have hcastn : ((s.length - 1 : ℕ) : ℚ) = (s.length : ℚ) - 1 := by
    push_cast [Nat.cast_sub (show 1 ≤ s.length from hn)]
    ring
  have hile : (⌊h⌋).toNat ≤ s.length - 1 := floor_toNat_le_of (by rw [hcastn]; exact hhn)
  have hilt : (⌊h⌋).toNat < s.length := by omega
  have hhi_le : min ((⌊h⌋).toNat + 1) (s.length - 1) < s.length := by omega
  have hige : (⌊h⌋).toNat ≤ min ((⌊h⌋).toNat + 1) (s.length - 1) := by omega
  have hd : s.getD (⌊h⌋).toNat 0 ≤ s.getD (min ((⌊h⌋).toNat + 1) (s.length - 1)) 0 :=
    sorted_getD_mono hs hige hhi_le
  have hfr0 : 0 ≤ h - (((⌊h⌋).toNat : ℕ) : ℚ) := by
    have := floor_toNat_cast_le hh0
    linarith
  have hfr1 : h - (((⌊h⌋).toNat : ℕ) : ℚ) ≤ 1 := by
    have := lt_floor_toNat_add_one hh0
    linarith
  rw [interpAt]
  constructor
  · nlinarith
  · nlinarith

theorem interpAt_mono {s : List ℚ} (hs : List.Sorted (· ≤ ·) s) (hn : 0 < s.length)
    {h1 h2 : ℚ} (hh10 : 0 ≤ h1) (h12 : h1 ≤ h2) (hh2n : h2 ≤ (s.length : ℚ) - 1) :
    interpAt s h1 ≤ interpAt s h2 := by
  have hh20 : 0 ≤ h2 := le_trans hh10 h12
  have hh1n : h1 ≤ (s.length : ℚ) - 1 := le_trans h12 hh2n
  have hcastn : ((s.length - 1 : ℕ) : ℚ) = (s.length : ℚ) - 1 := by
    push_cast [Nat.cast_sub (show 1 ≤ s.length from hn)]
    ring
  have hi2le : (⌊h2⌋).toNat ≤ s.length - 1 := floor_toNat_le_of (by rw [hcastn]; exact hh2n)
  have hi1le : (⌊h1⌋).toNat ≤ s.length - 1 := floor_toNat_le_of (by rw [hcastn]; exact hh1n)
  have hi12 : (⌊h1⌋).toNat ≤ (⌊h2⌋).toNat := by
    have := Int.floor_mono h12
    omega
  rcases Nat.lt_or_ge (⌊h1⌋).toNat (⌊h2⌋).toNat with hlt | hge
  · -- strictly smaller floor: chain through the knots
    have hb1 := interpAt_between hs hn hh10 hh1n
    have hb2 := interpAt_between hs hn hh20 hh2n
    have hmid : s.getD (min ((⌊h1⌋).toNat + 1) (s.length - 1)) 0 ≤ s.getD (⌊h2⌋).toNat 0 := by
      apply sorted_getD_mono hs (by omega) (by omega)
    exact le_trans hb1.2 (le_trans hmid hb2.1)
  · -- equal floors
    have heq : (⌊h1⌋).toNat = (⌊h2⌋).toNat := by omega
    rw [interpAt, interpAt, heq]
    have hd : s.getD (⌊h2⌋).toNat 0 ≤ s.getD (min ((⌊h2⌋).toNat + 1) (s.length - 1)) 0 :=
      sorted_getD_mono hs (by omega) (by omega)
    have hfr12 : h1 - (((⌊h2⌋).toNat : ℕ) : ℚ) ≤ h2 - (((⌊h2⌋).toNat : ℕ) : ℚ) := by linarith
    nlinarith

theorem percentile_mono (xs : List ℚ) (hne : xs ≠ []) {q1 q2 : ℚ}
    (hq0 : 0 ≤ q1) (hq12 : q1 ≤ q2) (hq100 : q2 ≤ 100) :
    percentile xs q1 ≤ percentile xs q2 := by
  have hs := sortAsc_sorted xs
  have hn : 0 < (sortAsc xs).length := by
    rw [sortAsc_length]
    exact List.length_pos.mpr hne
  have hn1 : (0 : ℚ) ≤ ((sortAsc xs).length : ℚ) - 1 := by
    have h1 : (1 : ℚ) ≤ ((sortAsc xs).length : ℚ) := by exact_mod_cast hn
    linarith
  rw [percentile, percentile]
  apply interpAt_mono hs hn
  · positivity
  · rw [div_le_div_iff₀ (by norm_num) (by norm_num)]
    nlinarith
  · rw [div_le_iff₀ (by norm_num : (0:ℚ) < 100)]
    nlinarith

theorem percentile_le_npMax (xs : List ℚ) (hne : xs ≠ []) {q : ℚ}
    (hq0 : 0 ≤ q) (hq100 : q ≤ 100) :
    percentile xs q ≤ npMax xs := by
  have hs := sortAsc_sorted xs
  have hn : 0 < (sortAsc xs).length := by
    rw [sortAsc_length]
    exact List.length_pos.mpr hne
  have hn1 : (0 : ℚ) ≤ ((sortAsc xs).length : ℚ) - 1 := by
    have h1 : (1 : ℚ) ≤ ((sortAsc xs).length : ℚ) := by exact_mod_cast hn
    linarith
  have hh0 : 0 ≤ ((((sortAsc xs).length : ℚ) - 1) * q / 100) := by positivity
  have hhn : ((((sortAsc xs).length : ℚ) - 1) * q / 100) ≤ ((sortAsc xs).length : ℚ) - 1 := by
    rw [div_le_iff₀ (by norm_num : (0 : ℚ) < 100)]
    nlinarith
  have hb := interpAt_between hs hn hh0 hhn
  rw [percentile]
  refine le_trans hb.2 ?_
  rw [show npMax xs = (sortAsc xs).getD (xs.length - 1) 0 from rfl, ← sortAsc_length xs]
  exact sorted_getD_mono hs (by omega) (by omega)

/-- C8: the linear-interpolation percentiles are ordered:
`P50 ≤ P95 ≤ P99 ≤ max` for every non-empty sample list. -/
theorem c8_percentile_order (xs : List ℚ) (hne : xs ≠ []) :
    percentile xs 50 ≤ percentile xs 95 ∧
    percentile xs 95 ≤ percentile xs 99 ∧
    percentile xs 99 ≤ npMax xs :=
  ⟨percentile_mono xs hne (by norm_num) (by norm_num) (by norm_num),
   percentile_mono xs hne (by norm_num) (by norm_num) (by norm_num),
   percentile_le_npMax xs hne (by norm_num) (by norm_num)⟩

/-- Witness for `c8_percentile_order` on `[3, 1, 2]`. -/
theorem c8_witness :
    ([(3 : ℚ), 1, 2] ≠ []) ∧
    (percentile [3, 1, 2] 50 ≤ percentile [3, 1, 2] 95 ∧
     percentile [3, 1, 2] 95 ≤ percentile [3, 1, 2] 99 ∧
     percentile [3, 1, 2] 99 ≤ npMax [3, 1, 2]) :=
  ⟨by simp, c8_percentile_order [3, 1, 2] (by simp)⟩

/-! ## C9: constant input is preserved by all smoothing methods -/


theorem det4_smul_col0 (a b c d : Vec4) (v : ℚ) :
    det4 (v * a.1, v * a.2.1, v * a.2.2.1, v * a.2.2.2) b c d = v * det4 a b c d := by
  simp only [det4, det3]
  ring

theorem det4_col1_dup (a c d : Vec4) (v : ℚ) :
    det4 a (v * a.1, v * a.2.1, v * a.2.2.1, v * a.2.2.2) c d = 0 := by
  simp only [det4, det3]
  ring

theorem det4_col2_dup (a b d : Vec4) (v : ℚ) :
    det4 a b (v * a.1, v * a.2.1, v * a.2.2.1, v * a.2.2.2) d = 0 := by
  simp only [det4, det3]
  ring

theorem det4_col3_dup (a b c : Vec4) (v : ℚ) :
    det4 a b c (v * a.1, v * a.2.1, v * a.2.2.1, v * a.2.2.2) = 0 := by
  simp only [det4, det3]
  ring

theorem powSum_map_const (ts : List ℚ) (v : ℚ) (p : ℕ) :
    powSum (ts.map (fun x => (x, v))) p = (ts.map (fun x => x ^ p)).sum := by
  rw [powSum, List.map_map]
  rfl

theorem momSum_map_const (ts : List ℚ) (v : ℚ) (p : ℕ) :
    momSum (ts.map (fun x => (x, v))) p = v * powSum (ts.map (fun x => (x, v))) p := by
  rw [momSum, powSum, List.map_map, List.map_map]
  rw [show ((fun q : ℚ × ℚ => q.1 ^ p * q.2) ∘ fun x => (x, v)) = fun x => x ^ p * v from rfl]
  rw [show ((fun q : ℚ × ℚ => q.1 ^ p) ∘ fun x => (x, v)) = fun x => x ^ p from rfl]
  rw [List.sum_map_mul_right]
  ring

theorem polyfitCubic_const (ts : List ℚ) (v : ℚ)
    (hD : det4 (normalCol (ts.map fun x => (x, v)) 0) (normalCol (ts.map fun x => (x, v)) 1)
        (normalCol (ts.map fun x => (x, v)) 2) (normalCol (ts.map fun x => (x, v)) 3) ≠ 0) :
    polyfitCubic (ts.map fun x => (x, v)) = (v, 0, 0, 0) := by
  have hb : momVec (ts.map fun x => (x, v))
      = (v * (normalCol (ts.map fun x => (x, v)) 0).1,
         v * (normalCol (ts.map fun x => (x, v)) 0).2.1,
         v * (normalCol (ts.map fun x => (x, v)) 0).2.2.1,
         v * (normalCol (ts.map fun x => (x, v)) 0).2.2.2) := by
    simp only [momVec, normalCol]
    rw [momSum_map_const ts v 0, momSum_map_const ts v 1, momSum_map_const ts v 2,
      momSum_map_const ts v 3]
  simp only [polyfitCubic]
  rw [hb, det4_smul_col0, det4_col1_dup, det4_col2_dup, det4_col3_dup]
  rw [mul_div_assoc, div_self hD, mul_one, zero_div]

theorem polyEval_const (v t : ℚ) : polyEval (v, 0, 0, 0) t = v := by
  simp [polyEval]

set_option maxHeartbeats 1000000 in
theorem det51_ne_zero (v : ℚ) :
    det4 (normalCol (((List.range 51).map (fun (k : ℕ) => (k : ℚ) - 25)).map
          (fun x => (x, v))) 0)
      (normalCol (((List.range 51).map (fun (k : ℕ) => (k : ℚ) - 25)).map
          (fun x => (x, v))) 1)
      (normalCol (((List.range 51).map (fun (k : ℕ) => (k : ℚ) - 25)).map
          (fun x => (x, v))) 2)
      (normalCol (((List.range 51).map (fun (k : ℕ) => (k : ℚ) - 25)).map
          (fun x => (x, v))) 3) ≠ 0 := by
  have hps : ∀ p : ℕ, powSum (((List.range 51).map (fun (k : ℕ) => (k : ℚ) - 25)).map
      (fun x => (x, v))) p = (((List.range 51).map (fun (k : ℕ) => (k : ℚ) - 25)).map
      (fun x => x ^ p)).sum := fun p => powSum_map_const _ v p
  simp only [normalCol, det4, det3, hps]
  norm_num [List.range_succ]

set_option maxHeartbeats 1000000 in
theorem savgolAt_const (v : ℚ) (i : ℕ) (hi : i < 100) :
    savgolAt (List.replicate 100 v) 51 i = v := by
  rw [savgolAt]
  simp only [List.length_replicate]
  norm_num
  set lo := (if i < 25 then 0 else if 100 ≤ i + 25 then 49 else i - 25) with hlo
  have hlo49 : lo ≤ 49 := by rw [hlo]; split_ifs <;> omega
  have hpts : (List.range 51).map
        (fun (k : ℕ) => ((k : ℚ) - 25, (List.replicate 100 v)[lo + k]?.getD 0))
      = ((List.range 51).map (fun (k : ℕ) => (k : ℚ) - 25)).map (fun x => (x, v)) := by
    rw [List.map_map]
    refine List.map_congr_left (fun k hk => ?_)
    rw [List.mem_range] at hk
    have hlk : lo + k < 100 := by omega
    simp only [List.getElem?_replicate, if_pos hlk, Option.getD_some, Function.comp_apply]
  rw [hpts, polyfitCubic_const _ _ (det51_ne_zero v), polyEval_const]


/-- C9: on 100 identical samples `v`, the rolling average, the bucketed
resample and the local polynomial (Savitzky–Golay) filter all return series
whose defined output values are exactly `v`. -/
theorem c9_constant_smoothing (v : ℚ) (ts : List ℚ) (_hts : ts.length = 100) :
    (∀ i val, (rollingCentered (List.replicate 100 v) 50).getD i none = some val → val = v) ∧
    (∀ e ∈ resampleMethod (ts.map (fun t => (t, v))), e.2.1 = v) ∧
    localPolyMethod (List.replicate 100 v) 50 = some (List.replicate 100 (some v)) := by
  refine ⟨?_, ?_, ?_⟩
  · intro i val h
    by_cases hin : i < (List.replicate (100 : ℕ) v).length
    · rw [rollingCentered, List.getD_eq_getElem?_getD, List.getElem?_map,
        List.getElem?_range (by simpa using hin), Option.map_some', Option.getD_some] at h
      split at h
      · rename_i hcond
        rw [Option.some_inj] at h
        rw [← h]
        apply listMean_const _ v
        · simp only [List.length_replicate] at hcond hin
          intro hnil
          have hlen := congrArg List.length hnil
          rw [List.length_take, List.length_drop, List.length_replicate] at hlen
          simp only [List.length_nil] at hlen
          omega
        · intro x hx
          exact List.eq_of_mem_replicate (List.mem_of_mem_drop (List.mem_of_mem_take hx))
      · cases h
    · rw [rollingCentered, List.getD_eq_getElem?_getD, List.getElem?_map,
        List.getElem?_eq_none (by simpa using Nat.le_of_not_lt hin)] at h
      cases h
  · intro e he
    obtain ⟨k, _, hke⟩ := List.mem_filterMap.mp he
    have hke2 : (if 3 ≤ (bucketVals (ts.map fun t => (t, v)) k).length
        then some (k, listMean (bucketVals (ts.map fun t => (t, v)) k),
          (bucketVals (ts.map fun t => (t, v)) k).length)
        else none) = some e := hke
    by_cases h3 : 3 ≤ (bucketVals (ts.map fun t => (t, v)) k).length
    · rw [if_pos h3, Option.some_inj] at hke2
      rw [← hke2]
      show listMean (bucketVals (ts.map fun t => (t, v)) k) = v
      apply listMean_const _ v
      · intro hnil
        rw [hnil] at h3
        simp at h3
      · intro x hx
        rw [bucketVals] at hx
        obtain ⟨s1, hs1, rfl⟩ := List.mem_map.mp hx
        obtain ⟨t1, _, rfl⟩ := List.mem_map.mp (List.mem_of_mem_filter hs1)
        rfl
    · rw [if_neg h3] at hke2
      cases hke2
  · rw [localPolyMethod, if_pos (by simp : (50 : ℕ) < (List.replicate 100 v).length)]
    rw [show ((if (50 : ℕ) % 2 = 1 then (50 : ℕ) else 50 + 1)) = 51 by norm_num]
    rw [if_pos (by norm_num : (3 : ℕ) < 51)]
    have hsav : savgolList (List.replicate 100 v) 51 = List.replicate 100 v := by
      rw [savgolList, List.length_replicate]
      refine List.eq_replicate_iff.mpr ⟨by simp, ?_⟩
      intro b hb
      obtain ⟨i, hi, rfl⟩ := List.mem_map.mp hb
      rw [List.mem_range] at hi
      exact savgolAt_const v i hi
    rw [hsav, List.map_replicate]

/-- Witness for `c9_constant_smoothing` at `v = 7` and timestamps `0..99`. -/
theorem c9_witness :
    (((List.range 100).map (fun (k : ℕ) => (k : ℚ))).length = 100) ∧
    localPolyMethod (List.replicate 100 (7 : ℚ)) 50
      = some (List.replicate 100 (some (7 : ℚ))) :=
  ⟨by simp, (c9_constant_smoothing 7 ((List.range 100).map (fun (k : ℕ) => (k : ℚ)))
      (by simp)).2.2⟩

/-! ## C1: interpolated CDF -/
set_option maxHeartbeats 1000000 in
set_option maxRecDepth 10000 in
/-- C1 counterexample.  For the per-second count series
`[1, 2×10, 3, 4, 5]` (14 seconds, 5 unique counts) the deduplicated points are
`(1, 1/14), (2, 1/7), (3, 6/7), (4, 13/14), (5, 1)` and the not-a-knot cubic
spline through them overshoots the sharp jump: output point 0 is `(1, 1/14)`
while output point 51 is `(703/499, −78595516/869760493 ≈ −0.09)` — x increases
but y strictly decreases, so the Interpolate output is not monotonically
non-decreasing. -/
theorem c1_counterexample :
    ((interpolateMethod [1, 2, 2, 2, 2, 2, 2, 2, 2, 2, 2, 3, 4, 5] 500).getD 0 (0, 0)).1
        < ((interpolateMethod [1, 2, 2, 2, 2, 2, 2, 2, 2, 2, 2, 3, 4, 5] 500).getD 51 (0, 0)).1 ∧
    ((interpolateMethod [1, 2, 2, 2, 2, 2, 2, 2, 2, 2, 2, 3, 4, 5] 500).getD 51 (0, 0)).2
        < ((interpolateMethod [1, 2, 2, 2, 2, 2, 2, 2, 2, 2, 2, 3, 4, 5] 500).getD 0 (0, 0)).2 := by
  have hup : uniquePairs [1, 2, 2, 2, 2, 2, 2, 2, 2, 2, 2, 3, 4, 5]
      = [(1, 1/14), (2, 1/7), (3, 6/7), (4, 13/14), (5, 1)] := by
    norm_num [uniquePairs, uniqueFirstIdx, sortAsc, List.insertionSort,
      List.orderedInsert, List.range_succ, List.filterMap_cons,
      List.getD_eq_getElem?_getD, List.getElem?_cons_zero, List.getElem?_cons_succ]
  have hM : notAKnotMoments [1, 2, 3, 4, 5] [1/14, 1/7, 6/7, 13/14, 1]
      = [135/56, 9/14, -9/8, 0, 9/8] := by
    norm_num [notAKnotMoments, gaussSolve, gaussAux, splineSystem, splineRow, List.range_succ]
  have hmethod : interpolateMethod [1, 2, 2, 2, 2, 2, 2, 2, 2, 2, 2, 3, 4, 5] 500
      = (linspace 1 5 500).map
          (fun x => (x, splineEval [1, 2, 3, 4, 5] [1/14, 1/7, 6/7, 13/14, 1] x)) := by
    simp only [interpolateMethod, hup]
    norm_num
  have hv0 : splineEval [1, 2, 3, 4, 5] [1/14, 1/7, 6/7, 13/14, 1] 1 = 1/14 := by
    norm_num [splineEval, hM, List.takeWhile]
  have hv51 : splineEval [1, 2, 3, 4, 5] [1/14, 1/7, 6/7, 13/14, 1] (703/499)
      = -78595516/869760493 := by
    norm_num [splineEval, hM, List.takeWhile]
  have hx0 : (linspace 1 5 500)[0]? = some 1 := by
    rw [linspace_getElem 1 5 500 0 (by norm_num)]
    norm_num
  have hx51 : (linspace 1 5 500)[51]? = some (703/499) := by
    rw [linspace_getElem 1 5 500 51 (by norm_num)]
    norm_num
  have h0 : (interpolateMethod [1, 2, 2, 2, 2, 2, 2, 2, 2, 2, 2, 3, 4, 5] 500).getD 0 (0, 0)
      = (1, 1/14) := by
    rw [hmethod, List.getD_eq_getElem?_getD, List.getElem?_map, hx0]
    norm_num [hv0]
  have h51 : (interpolateMethod [1, 2, 2, 2, 2, 2, 2, 2, 2, 2, 2, 3, 4, 5] 500).getD 51 (0, 0)
      = (703/499, -78595516/869760493) := by
    rw [hmethod, List.getD_eq_getElem?_getD, List.getElem?_map, hx51]
    norm_num [hv51]
  rw [h0, h51]
  norm_num

/-- C1 amended: with at least 5 unique counts the deduplicated
`(count, cumulative)` control points the cubic is fitted through are strictly
increasing in both coordinates, and the output x-values are exactly the
`num_points` evenly spaced values spanning `[min, max]`; the interpolated
y-values themselves are not monotonically non-decreasing in general (the cubic
fit overshoots sharp jumps — see the counterexample). -/
theorem c1_amended (counts : List ℚ) (numPoints : ℕ)
    (h5 : 4 < (uniquePairs counts).length) :
    List.Pairwise (fun p q : ℚ × ℚ => p.1 < q.1 ∧ p.2 < q.2) (uniquePairs counts) ∧
    (interpolateMethod counts numPoints).map Prod.fst
      = linspace (((uniquePairs counts).map Prod.fst).getD 0 0)
          (((uniquePairs counts).map Prod.fst).getD
            (((uniquePairs counts).map Prod.fst).length - 1) 0) numPoints := by
  have hsorted := sortAsc_sorted counts
  constructor
  · have hrange : List.Pairwise (fun a b : ℕ => a < b ∧ b < (sortAsc counts).length)
        (List.range (sortAsc counts).length) := by
      rw [List.pairwise_iff_get]
      intro a b hab
      simp only [List.get_eq_getElem, List.getElem_range]
      refine ⟨by simpa using hab, ?_⟩
      have := b.isLt
      simpa using this
    have hufi : List.Pairwise (fun x y : ℚ × ℕ => x.1 < y.1 ∧ x.2 < y.2)
        (uniqueFirstIdx (sortAsc counts)) := by
      rw [uniqueFirstIdx]
      refine List.Pairwise.filterMap _ ?_ hrange
      rintro i j ⟨hij, hjn⟩ b hb b2 hb2
      by_cases hci : (i = 0 ∨ (sortAsc counts).getD i 0 ≠ (sortAsc counts).getD (i - 1) 0)
      · rw [if_pos hci] at hb
        by_cases hcj : (j = 0 ∨ (sortAsc counts).getD j 0 ≠ (sortAsc counts).getD (j - 1) 0)
        · rw [if_pos hcj] at hb2
          rw [Option.mem_def, Option.some_inj] at hb hb2
          rw [← hb, ← hb2]
          refine ⟨?_, hij⟩
          have hne : (sortAsc counts).getD j 0 ≠ (sortAsc counts).getD (j - 1) 0 := by
            rcases hcj with h0 | h
            · omega
            · exact h
          have hle : (sortAsc counts).getD i 0 ≤ (sortAsc counts).getD j 0 :=
            sorted_getD_mono hsorted (le_of_lt hij) hjn
          rcases lt_or_eq_of_le hle with hlt | heq
          · exact hlt
          · exfalso
            have hle1 : (sortAsc counts).getD i 0 ≤ (sortAsc counts).getD (j - 1) 0 :=
              sorted_getD_mono hsorted (by omega) (by omega)
            have hle2 : (sortAsc counts).getD (j - 1) 0 ≤ (sortAsc counts).getD j 0 :=
              sorted_getD_mono hsorted (by omega) hjn
            apply hne
            have h1 : (sortAsc counts).getD j 0 ≤ (sortAsc counts).getD (j - 1) 0 := by
              rw [← heq]
              exact hle1
            exact le_antisymm h1 hle2
        · rw [if_neg hcj] at hb2
          cases hb2
      · rw [if_neg hci] at hb
        cases hb
    have hn0 : (0 : ℚ) < ((sortAsc counts).length : ℚ) := by
      have hlen : (uniquePairs counts).length ≤ (sortAsc counts).length := by
        rw [uniquePairs, List.length_map, uniqueFirstIdx]
        calc (List.filterMap _ (List.range (sortAsc counts).length)).length
            ≤ (List.range (sortAsc counts).length).length := List.length_filterMap_le _ _
          _ = (sortAsc counts).length := List.length_range _
      have : 0 < (sortAsc counts).length := by omega
      exact_mod_cast this
    rw [uniquePairs]
    refine List.Pairwise.map _ ?_ hufi
    rintro a b ⟨hv, hidx⟩
    refine ⟨hv, ?_⟩
    show ((a.2 : ℚ) + 1) / ((sortAsc counts).length : ℚ)
        < ((b.2 : ℚ) + 1) / ((sortAsc counts).length : ℚ)
    rw [div_lt_div_iff₀ hn0 hn0]
    have hcast : (a.2 : ℚ) < (b.2 : ℚ) := by exact_mod_cast hidx
    nlinarith
  · rw [interpolateMethod]
    rw [if_pos h5]
    rw [List.map_map]
    have hid : (Prod.fst ∘ fun x : ℚ =>
        (x, splineEval ((uniquePairs counts).map Prod.fst)
          ((uniquePairs counts).map Prod.snd) x)) = id := rfl
    rw [hid, List.map_id]

/-- Witness for `c1_amended` at the five-count series `[1, 2, 3, 4, 5]`. -/
theorem c1_amended_witness :
    (4 < (uniquePairs [1, 2, 3, 4, 5]).length) ∧
    List.Pairwise (fun p q : ℚ × ℚ => p.1 < q.1 ∧ p.2 < q.2)
      (uniquePairs [1, 2, 3, 4, 5]) := by
  have h5 : 4 < (uniquePairs [(1 : ℚ), 2, 3, 4, 5]).length := by
    norm_num [uniquePairs, uniqueFirstIdx, sortAsc, List.insertionSort, List.orderedInsert,
      List.range_succ, List.filterMap_cons, List.getD_eq_getElem?_getD,
      List.getElem?_cons_zero, List.getElem?_cons_succ]
  exact ⟨h5, (c1_amended [1, 2, 3, 4, 5] 500 h5).1⟩

end QuickPizza
